import Mathlib

/-!
Verification development for the crawler-graph repository (`src/crawl.py` and the
store models it drives).  Strings are modelled as `List Char`.  The functions
below are shallow embeddings of the Python source: `normalizeurl`,
`get_links_from_normalized_url`, `process_crawl`, `process_write_postgres`, the
node-merging effect of `process_write_neo4j`, and the dispatcher loop
`CrawlerDispatcher.main_iter` / `begin`.
-/

/-! ### String utilities mirroring the Python primitives used by the source -/

/-- Python `str.strip()` whitespace over ASCII (plus the latin-1 whitespace
code points 133 and 160): values for which `chr(v).isspace()` holds. -/
def pyWSVals : List Nat := [9, 10, 11, 12, 13, 28, 29, 30, 31, 32, 133, 160]

def isPyWS (c : Char) : Bool := pyWSVals.contains c.toNat

/-- Left part of Python `str.strip()`. -/
def pyLstrip (l : List Char) : List Char := l.dropWhile isPyWS

/-- Right part of Python `str.strip()`. -/
def pyRstrip (l : List Char) : List Char := (l.reverse.dropWhile isPyWS).reverse

/-- Python `str.strip()` with no arguments, as used in `normalizeurl`. -/
def pyStrip (l : List Char) : List Char := pyRstrip (pyLstrip l)

/-- `_WHATWG_C0_CONTROL_OR_SPACE` test from `urllib.parse`. -/
def isC0OrSpace (c : Char) : Bool := c.toNat ≤ 32

/-- `urlsplit` only lstrips the URL (CPython keeps trailing spaces on purpose). -/
def lstripC0 (l : List Char) : List Char := l.dropWhile isC0OrSpace

/-- `urlsplit` removes the unsafe bytes tab, CR and LF anywhere in the URL. -/
def removeTabsCrLf (l : List Char) : List Char :=
  l.filter (fun c => !(c == '\t' || c == '\r' || c == '\n'))

/-- `str.rstrip('/')` as used in `normalizeurl`: drops every trailing slash. -/
def rstripSlashes (l : List Char) : List Char := (l.reverse.dropWhile (· == '/')).reverse

/-- Split a list at the first occurrence of `c`: returns the part before it and,
when `c` occurs, the part after it (mirrors `str.find` + slicing /
`str.split(c, 1)` in the Python source). -/
def splitOnFirst (c : Char) : List Char → List Char × Option (List Char)
  | [] => ([], none)
  | x :: xs =>
    if x = c then ([], some xs)
    else
      let r := splitOnFirst c xs
      (x :: r.1, r.2)

/-- Split at the last occurrence of `c` (mirrors `str.rfind`). -/
def splitOnLast (c : Char) (l : List Char) : Option (List Char × List Char) :=
  match splitOnFirst c l.reverse with
  | (revseg, some revpre) => some (revpre.reverse, revseg.reverse)
  | (_, none) => none

/-- Starts-with test on character lists. -/
def beginsWith : List Char → List Char → Bool
  | [], _ => true
  | _ :: _, [] => false
  | x :: xs, y :: ys => x == y && beginsWith xs ys

/-- Substring test, mirroring Python `needle in hay` on `str` (and
`re.compile(needle).search(hay)` for a pattern with no special characters). -/
def hasSub (needle : List Char) : List Char → Bool
  | [] => needle.isEmpty
  | y :: ys => beginsWith needle (y :: ys) || hasSub needle ys

/-! ### Shallow embedding of `urllib.parse.urlparse` (modern CPython)

Only the behaviour exercised by `normalizeurl` is modelled: scheme splitting at
the first `:` with a valid scheme prefix, netloc extraction after `//` up to
`/?#`, fragment split at the first `#`, query split at the first `?`, and the
params split `urlparse` performs on the last path segment for schemes in
`uses_params`.  `_checknetloc` is approximated conservatively: any non-ASCII
netloc is rejected (CPython only rejects non-ASCII netlocs whose NFKC form
hides a separator), and mismatched `[`/`]` brackets are rejected as in CPython;
rejection is modelled as `none` (a raised `ValueError`). -/

def schemeChar (c : Char) : Bool := c.isAlphanum || c == '+' || c == '-' || c == '.'

/-- The scheme-splitting step of `urlsplit`: the first `:` is a scheme separator
when it is preceded only by scheme characters starting with an ASCII letter. -/
def splitScheme (l : List Char) : Option (List Char) × List Char :=
  match splitOnFirst ':' l with
  | (pre, some rest) =>
    match pre with
    | [] => (none, l)
    | p0 :: _ =>
      if p0.isAlpha && pre.all schemeChar then (some (pre.map Char.toLower), rest)
      else (none, l)
  | (_, none) => (none, l)

def netlocDelim (c : Char) : Bool := c == '/' || c == '?' || c == '#'

/-- `_splitnetloc`: everything from position 2 up to the first `/`, `?` or `#`. -/
def splitNetloc (l : List Char) : List Char × List Char :=
  (l.takeWhile (fun c => !netlocDelim c), l.dropWhile (fun c => !netlocDelim c))

/-- Netloc extraction: only applies when the remainder starts with `//`
(CPython tests `url[:2] == '//'`). -/
def takeNetloc (l : List Char) : List Char × List Char :=
  if l.take 2 = ['/', '/'] then splitNetloc (l.drop 2) else ([], l)

/-- Bracket check of `urlsplit` plus a conservative ASCII-only rendering of
`_checknetloc`. -/
def netlocOk (nl : List Char) : Prop :=
  ¬(('[' ∈ nl ∧ ']' ∉ nl) ∨ (']' ∈ nl ∧ '[' ∉ nl)) ∧ ∀ c ∈ nl, c.toNat < 128

instance (nl : List Char) : Decidable (netlocOk nl) := by
  unfold netlocOk; infer_instance

/-- `_splitparams`: split params off the last path segment (first `;` at or
after the last `/`; when the path has no `/`, at the first `;`). -/
def splitParamsFn (l : List Char) : List Char × List Char :=
  match splitOnLast '/' l with
  | some (pre, seg) =>
    match splitOnFirst ';' seg with
    | (a, some b) => (pre ++ '/' :: a, b)
    | (_, none) => (l, [])
  | none =>
    match splitOnFirst ';' l with
    | (a, some b) => (a, b)
    | (_, none) => (l, [])

structure URLParts where
  scheme : List Char
  netloc : List Char
  path : List Char
  params : List Char
  query : List Char
  fragment : List Char
deriving DecidableEq

/-- `uses_params` from `urllib.parse` (the schemes for which `urlparse`
performs the params split); the empty scheme is a member. -/
def usesParams : List (List Char) :=
  ["", "ftp", "hdl", "prospero", "http", "imap", "https", "shttp", "rtsp",
   "rtspu", "sip", "sips", "mms", "sftp", "tel"].map String.data

/-- `urllib.parse.urlsplit`.  `none` models a raised `ValueError`. -/
def urlsplitModel (url0 : List Char) : Option URLParts :=
  let url1 := removeTabsCrLf (lstripC0 url0)
  let sp := splitScheme url1
  let scheme := sp.1.getD []
  let np := takeNetloc sp.2
  if netlocOk np.1 then
    let fp := splitOnFirst '#' np.2
    let qp := splitOnFirst '?' fp.1
    some ⟨scheme, np.1, qp.1, [], qp.2.getD [], fp.2.getD []⟩
  else none

/-- `urllib.parse.urlparse`: `urlsplit` plus the params split. -/
def urlparseModel (url0 : List Char) : Option URLParts :=
  match urlsplitModel url0 with
  | none => none
  | some p =>
    if usesParams.contains p.scheme ∧ ';' ∈ p.path then
      let pr := splitParamsFn p.path
      some { p with path := pr.1, params := pr.2 }
    else some p

/-- `normalizeurl` from `src/crawl.py`: parse `url.strip()`, keep
`netloc + path`, `rstrip('/')`, and append `'?' + query` when the query is
non-empty.  `none` models the `ValueError` that `urlparse` can raise. -/
def normalizeurl (url : List Char) : Option (List Char) :=
  match urlparseModel (pyStrip url) with
  | none => none
  | some p =>
    let normalized := rstripSlashes (p.netloc ++ p.path)
    some (if p.query.length > 0 then normalized ++ '?' :: p.query else normalized)

/-! ### Fetcher: `get_links_from_normalized_url` and `process_crawl`

The HTTP/HTML layer is abstracted as a `FetchOutcome`: either the request (or
the parse) raises, or it yields a response with a status code, an optional
`content-type` header (a missing header raises `KeyError`, caught by the
handler), the parsed `<title>` text when a title tag exists, the `href`
values of the anchors that carry an `href` attribute, and the raw body text. -/

structure HttpResponse where
  status : Nat
  contentType : Option (List Char)
  titleTag : Option (List Char)
  hrefs : List (List Char)
  text : List Char

inductive FetchOutcome where
  | raises
  | ok (r : HttpResponse)

/-- Evaluate a list of optional values, failing if any fails (the Python list
comprehension `[normalizeurl(...) for link in linktags]` propagates the first
`ValueError`). -/
def seqOpt : List (Option (List Char)) → Option (List (List Char))
  | [] => some []
  | none :: _ => none
  | some a :: rest => (seqOpt rest).map (a :: ·)

/-- A Python `set` built from a list, modelled as the deduplicated list (the
set's iteration order is unspecified in Python; the model fixes one). -/
def pySet (l : List (List Char)) : List (List Char) := l.dedup

/-- The anchors kept by `soup.find_all('a', attrs=(href = re.compile('https://')))`:
`re.search` semantics, so an anchor is kept when its href CONTAINS `https://`. -/
def keptHrefs (hrefs : List (List Char)) : List (List Char) :=
  hrefs.filter (fun h => hasSub "https://".data h)

/-- `get_links_from_normalized_url` from `src/crawl.py`.  All failure paths
return `None` (modelled `none`): non-200 status, missing or non-HTML
content type, and any exception raised while fetching or normalizing. -/
def get_links_from_normalized_url (f : FetchOutcome) :
    Option (List Char × List Char × List (List Char)) :=
  match f with
  | .raises => none
  | .ok r =>
    if r.status ≠ 200 then none
    else
      match r.contentType with
      | none => none
      | some ct =>
        if ¬ hasSub "text/html".data ct then none
        else
          match seqOpt ((keptHrefs r.hrefs).map normalizeurl) with
          | none => none
          | some links => some (r.titleTag.getD [], r.text, pySet links)

/-- `CrawlResult` from `src/crawl.py` (crawl time as an abstract tick). -/
structure CrawlResult where
  url : List Char
  crawled_time : Nat
  success : Bool
  title : Option (List Char) := none
  body : Option (List Char) := none
  links : List (List Char) := []
deriving DecidableEq

/-- `process_crawl` from `src/crawl.py`: a `None` from the fetch step yields a
failure `CrawlResult`; otherwise the title, body and link set are wrapped in a
success `CrawlResult`.  The function's own `except` branch is unreachable in
the model because `get_links_from_normalized_url` already catches every
exception of the fetch/parse phase and the remaining statements are total. -/
def process_crawl (f : FetchOutcome) (now : Nat) (url : List Char) : CrawlResult :=
  match get_links_from_normalized_url f with
  | none => { url := url, crawled_time := now, success := false }
  | some (t, text, links) =>
    { url := url, crawled_time := now, success := true,
      title := some t, body := some text, links := links }

/-- The failure conditions enumerated by the spec for a fetch: a raised
exception, a non-200 status, a missing or non-HTML content type, or a
normalization error while extracting links. -/
def failurePath : FetchOutcome → Prop
  | .raises => True
  | .ok r =>
    r.status ≠ 200 ∨ r.contentType = none
      ∨ (∃ ct, r.contentType = some ct ∧ hasSub "text/html".data ct = false)
      ∨ seqOpt ((keptHrefs r.hrefs).map normalizeurl) = none

/-- Link set described by the spec's words for claim C7: the normalized hrefs
of exactly those anchors whose href BEGINS with `https://`. -/
def specLinkSet (hrefs : List (List Char)) : Finset (List Char) :=
  ((hrefs.filter (fun h => beginsWith "https://".data h)).filterMap normalizeurl).toFinset

/-- The link set a `get_links_from_normalized_url` success actually returns,
as a finite set. -/
def codeLinkSet (hrefs : List (List Char)) : Finset (List Char) :=
  ((keptHrefs hrefs).filterMap normalizeurl).toFinset

/-! ### Relational writer: `process_write_postgres`

The Pony/peewee store is modelled as an association list from normalized URL
to `PGCrawlerRecord` fields (minus the key). -/

structure PGRecord where
  crawled : Bool
  title : Option (List Char) := none
  body : Option (List Char) := none
  success : Option Bool := none
  crawled_date : Option Nat := none
deriving DecidableEq

abbrev PGStore := List (List Char × PGRecord)

def lookupStore (store : PGStore) (u : List Char) : Option PGRecord :=
  (List.find? (fun p => p.1 == u) store).map Prod.snd

/-- `bucketized_results` is a dict comprehension, so for duplicate URLs the
last result wins. -/
def bucketize (results : List CrawlResult) (u : List Char) : Option CrawlResult :=
  List.find? (fun cr => cr.url == u) results.reverse

/-- The per-record update loop of `process_write_postgres`; note the source
assigns `pgrecord.title = crecord.body` (not `crecord.title`). -/
def applyResult (o : Option CrawlResult) (r : PGRecord) : PGRecord :=
  match o with
  | none => r
  | some cr =>
    { crawled := true,
      crawled_date := some cr.crawled_time,
      success := some cr.success,
      title := if cr.title.isSome then cr.body else r.title,
      body := if cr.body.isSome then cr.body else r.body }

/-- `all_new_links`: the union of the link sets across the batch (a Python
set, hence deduplicated). -/
def allNewLinks (results : List CrawlResult) : List (List Char) :=
  pySet ((results.map (·.links)).flatten)

def pendingRecord : PGRecord := { crawled := false }

/-- `process_write_postgres` from `src/crawl.py`: update every record whose
URL is among the batch's crawled URLs, then insert a `crawled=false` record
for every discovered link that has no record yet. -/
def process_write_postgres (store : PGStore) (results : List CrawlResult) : PGStore :=
  let allCrawledUrls := results.map (·.url)
  let updated : PGStore :=
    store.map (fun p =>
      if allCrawledUrls.contains p.1 then (p.1, applyResult (bucketize results p.1) p.2)
      else p)
  let existsurls := (store.map (·.1)).filter (fun k => (allNewLinks results).contains k)
  let newlinkurls := (allNewLinks results).filter (fun u => !existsurls.contains u)
  updated ++ newlinkurls.map (fun u => (u, pendingRecord))

/-! ### Graph writer: node effect of `process_write_neo4j`

`merge_nodes(graph.auto(), ndata, ('Record', 'url'), keys=['url', 'title'],
preserve=['url'])` merges each row on the `url` key; the preserved key `url`
is only written on create, while `title` — not preserved — is written
unconditionally, on create and on match alike.  The graph's nodes are
modelled as an association list from url to the optional `title` property
(a `None` title models an absent property).  The `merge_relationships` calls
only merge edges keyed on urls already merged by the node step and never
write a `title`, so they do not appear in the node model. -/

abbrev NodeList := List (List Char × Option (List Char))

def lookupNodes (g : NodeList) (u : List Char) : Option (Option (List Char)) :=
  (List.find? (fun p => p.1 == u) g).map Prod.snd

/-- One row of a py2neo bulk `merge_nodes` with merge key `url` and
`preserve=['url']`: on match the title is overwritten, on create the node is
appended. -/
def mergeNode (g : NodeList) (k : List Char) (v : Option (List Char)) : NodeList :=
  match g with
  | [] => [(k, v)]
  | p :: rest => if p.1 = k then (k, v) :: rest else p :: mergeNode rest k v

def merge_nodes (g : NodeList) (rows : List (List Char × Option (List Char))) : NodeList :=
  rows.foldl (fun g2 p => mergeNode g2 p.1 p.2) g

/-- `ndata` from `process_write_neo4j`: the crawled page's row first, then one
placeholder row per discovered link with an empty-string title. -/
def neoNodeRows (res : CrawlResult) : List (List Char × Option (List Char)) :=
  (res.url, res.title) :: res.links.map (fun u => (u, some []))

/-- Node effect of `process_write_neo4j` from `src/crawl.py`. -/
def process_write_neo4j (g : NodeList) (res : CrawlResult) : NodeList :=
  merge_nodes g (neoNodeRows res)

/-! ### Dispatcher: `CrawlerDispatcher.main_iter` inside `begin`

The sequential order of the dispatcher loop is modelled as an event trace.
Iteration `b` emits: submit the fetch batch, wait on the fetch futures (60s
deadline / pool recycling), wait on `self.write_futures` — which, because
`begin` only ever appends (`self.write_futures += self.main_iter()`), holds
every write future submitted by iterations `0 .. b-1` — then submit this
iteration's write tasks.  `nw b` is the number of write tasks of batch `b`
(one `process_write_neo4j` per result plus one `process_write_postgres`). -/

inductive Ev where
  | submitFetch (batch : Nat)
  | waitFetch (batch : Nat)
  | waitPrevWrites (batch : Nat)
  | submitWrite (batch : Nat) (idx : Nat)
deriving DecidableEq

def iterEvents (nw : Nat → Nat) (b : Nat) : List Ev :=
  [Ev.submitFetch b, Ev.waitFetch b, Ev.waitPrevWrites b]
    ++ (List.range (nw b)).map (Ev.submitWrite b)

def dispatcherTrace (nw : Nat → Nat) : Nat → List Ev
  | 0 => []
  | n + 1 => dispatcherTrace nw n ++ iterEvents nw n

/-- Contents of `self.write_futures` when iteration `b` reaches its
`wait(self.write_futures, return_when=ALL_COMPLETED)` call: the futures
`(batch, idx)` of every earlier iteration (the list is never cleared). -/
def writeFutures (nw : Nat → Nat) : Nat → List (Nat × Nat)
  | 0 => []
  | b + 1 => writeFutures nw b ++ (List.range (nw b)).map (fun k => (b, k))

/-! ### Helper lemmas on the string utilities -/

theorem splitOnFirst_nil (c : Char) : splitOnFirst c [] = ([], none) := rfl

theorem splitOnFirst_cons (c x : Char) (xs : List Char) :
    splitOnFirst c (x :: xs) =
      if x = c then ([], some xs) else (x :: (splitOnFirst c xs).1, (splitOnFirst c xs).2) := rfl

theorem splitOnFirst_fst_not_mem (c : Char) (l : List Char) : c ∉ (splitOnFirst c l).1 := by
  induction l with
  | nil => simp [splitOnFirst_nil]
  | cons x xs ih =>
    rw [splitOnFirst_cons]
    by_cases h : x = c
    · simp [h]
    · rw [if_neg h]
      intro hmem
      rcases List.mem_cons.mp hmem with he | hm
      · exact h he.symm
      · exact ih hm

theorem splitOnFirst_mem_fst {c x : Char} {l : List Char}
    (h : x ∈ (splitOnFirst c l).1) : x ∈ l := by
  induction l with
  | nil => simp [splitOnFirst_nil] at h
  | cons y ys ih =>
    rw [splitOnFirst_cons] at h
    by_cases hy : y = c
    · rw [if_pos hy] at h
      simp at h
    · rw [if_neg hy] at h
      rcases List.mem_cons.mp h with he | hm
      · exact he ▸ List.mem_cons_self _ _
      · exact List.mem_cons_of_mem _ (ih hm)

theorem splitOnFirst_mem_snd {c x : Char} {l r : List Char}
    (h : (splitOnFirst c l).2 = some r) (hx : x ∈ r) : x ∈ l := by
  induction l with
  | nil => simp [splitOnFirst_nil] at h
  | cons y ys ih =>
    rw [splitOnFirst_cons] at h
    by_cases hy : y = c
    · rw [if_pos hy] at h
      simp at h
      exact List.mem_cons_of_mem _ (h ▸ hx)
    · rw [if_neg hy] at h
      exact List.mem_cons_of_mem _ (ih h)

theorem splitOnFirst_of_not_mem {c : Char} {l : List Char} (h : c ∉ l) :
    splitOnFirst c l = (l, none) := by
  induction l with
  | nil => rfl
  | cons y ys ih =>
    have hy : ¬ y = c := fun he => h (he ▸ List.mem_cons_self _ _)
    rw [splitOnFirst_cons, if_neg hy, ih (fun hm => h (List.mem_cons_of_mem _ hm))]

theorem splitOnFirst_append_cons {c : Char} {a : List Char} (b : List Char) (h : c ∉ a) :
    splitOnFirst c (a ++ c :: b) = (a, some b) := by
  induction a with
  | nil => simp [splitOnFirst_cons]
  | cons y ys ih =>
    have hy : ¬ y = c := fun he => h (he ▸ List.mem_cons_self _ _)
    rw [List.cons_append, splitOnFirst_cons, if_neg hy,
      ih (fun hm => h (List.mem_cons_of_mem _ hm))]

theorem splitOnFirst_decomp {c : Char} {l r : List Char}
    (h : (splitOnFirst c l).2 = some r) : l = (splitOnFirst c l).1 ++ c :: r := by
  induction l with
  | nil => simp [splitOnFirst_nil] at h
  | cons y ys ih =>
    rw [splitOnFirst_cons]
    by_cases hy : y = c
    · rw [splitOnFirst_cons, if_pos hy] at h
      simp at h
      rw [if_pos hy, h, hy]
      rfl
    · rw [splitOnFirst_cons, if_neg hy] at h
      rw [if_neg hy]
      simpa using ih h

theorem splitOnFirst_append_of_some {c : Char} {l r : List Char} (m : List Char)
    (h : (splitOnFirst c l).2 = some r) :
    splitOnFirst c (l ++ m) = ((splitOnFirst c l).1, some (r ++ m)) := by
  induction l with
  | nil => simp [splitOnFirst_nil] at h
  | cons y ys ih =>
    by_cases hy : y = c
    · rw [splitOnFirst_cons, if_pos hy] at h
      simp at h
      rw [List.cons_append, splitOnFirst_cons, if_pos hy, splitOnFirst_cons, if_pos hy, h]
    · rw [splitOnFirst_cons, if_neg hy] at h
      rw [List.cons_append, splitOnFirst_cons, if_neg hy, splitOnFirst_cons, if_neg hy, ih h]

theorem splitOnFirst_append_of_none {c : Char} {l : List Char} (m : List Char)
    (h : (splitOnFirst c l).2 = none) :
    splitOnFirst c (l ++ m) = (l ++ (splitOnFirst c m).1, (splitOnFirst c m).2) := by
  induction l with
  | nil => simp
  | cons y ys ih =>
    by_cases hy : y = c
    · rw [splitOnFirst_cons, if_pos hy] at h
      simp at h
    · rw [splitOnFirst_cons, if_neg hy] at h
      rw [List.cons_append, splitOnFirst_cons, if_neg hy, ih h]
      simp

theorem splitOnFirst_snd_none_iff {c : Char} {l : List Char} :
    (splitOnFirst c l).2 = none ↔ c ∉ l := by
  constructor
  · intro h hc
    induction l with
    | nil => simp at hc
    | cons y ys ih =>
      by_cases hy : y = c
      · rw [splitOnFirst_cons, if_pos hy] at h
        simp at h
      · rw [splitOnFirst_cons, if_neg hy] at h
        rcases List.mem_cons.mp hc with he | hm
        · exact hy he.symm
        · exact ih h hm
  · intro h
    rw [splitOnFirst_of_not_mem h]

theorem takeWhile_append_stop {p : Char → Bool} {c : Char} (a b : List Char)
    (h : p c = false) : (a ++ c :: b).takeWhile p = a.takeWhile p := by
  induction a with
  | nil => simp [List.takeWhile_cons, h]
  | cons x xs ih =>
    cases hx : p x <;> simp [List.takeWhile_cons, hx, ih]

theorem dropWhile_append_stop {p : Char → Bool} {c : Char} (a b : List Char)
    (h : p c = false) : (a ++ c :: b).dropWhile p = a.dropWhile p ++ c :: b := by
  induction a with
  | nil => simp [List.dropWhile_cons, h]
  | cons x xs ih =>
    cases hx : p x <;> simp [List.dropWhile_cons, hx, ih]

theorem dropWhile_idem (p : Char → Bool) (l : List Char) :
    (l.dropWhile p).dropWhile p = l.dropWhile p := by
  induction l with
  | nil => simp
  | cons x xs ih =>
    cases hx : p x <;> simp [List.dropWhile_cons, hx, ih]

theorem head?_dropWhile_false {p : Char → Bool} {l : List Char} {a : Char}
    (h : (l.dropWhile p).head? = some a) : p a = false := by
  induction l with
  | nil => simp at h
  | cons x xs ih =>
    cases hx : p x
    · simp [List.dropWhile_cons, hx] at h
      exact h ▸ hx
    · simp [List.dropWhile_cons, hx] at h
      exact ih h

theorem rstripSlashes_getLast? (l : List Char) :
    (rstripSlashes l).getLast? ≠ some '/' := by
  unfold rstripSlashes
  rw [List.getLast?_reverse]
  intro h
  have := head?_dropWhile_false h
  simp at this

theorem rstripSlashes_idem (l : List Char) :
    rstripSlashes (rstripSlashes l) = rstripSlashes l := by
  unfold rstripSlashes
  rw [List.reverse_reverse, dropWhile_idem]

theorem rstripSlashes_mem {x : Char} {l : List Char} (h : x ∈ rstripSlashes l) : x ∈ l := by
  unfold rstripSlashes at h
  rw [List.mem_reverse] at h
  have hm := (List.dropWhile_sublist (l := l.reverse) (p := (· == '/'))).mem h
  rwa [List.mem_reverse] at hm

/-! ### Structure of parsed URL components -/

theorem splitScheme_none {l : List Char} (h : (splitScheme l).1 = none) :
    splitScheme l = (none, l) := by
  unfold splitScheme at h ⊢
  split at h
  · split at h
    · rfl
    · split at h
      · simp at h
      · rename_i hc
        rw [if_neg hc]
  · rfl

theorem splitScheme_mem_snd {x : Char} {l : List Char} (h : x ∈ (splitScheme l).2) : x ∈ l := by
  unfold splitScheme at h
  split at h
  · split at h
    · exact h
    · split at h
      · rename splitOnFirst ':' l = _ => heq
        exact splitOnFirst_mem_snd (r := _) (by rw [heq]) h
      · exact h
  · exact h

theorem takeNetloc_mem_fst {x : Char} {l : List Char} (h : x ∈ (takeNetloc l).1) : x ∈ l := by
  unfold takeNetloc at h
  split at h
  · have h2 := (List.takeWhile_sublist (l := l.drop 2) (p := fun c => !netlocDelim c)).mem
      (by simpa [splitNetloc] using h)
    exact (List.drop_sublist 2 l).mem h2
  · exact absurd h (List.not_mem_nil x)

theorem takeNetloc_mem_snd {x : Char} {l : List Char} (h : x ∈ (takeNetloc l).2) : x ∈ l := by
  unfold takeNetloc at h
  split at h
  · have h2 := (List.dropWhile_sublist (l := l.drop 2) (p := fun c => !netlocDelim c)).mem
      (by simpa [splitNetloc] using h)
    exact (List.drop_sublist 2 l).mem h2
  · exact h

theorem takeNetloc_fst_no_delim {x : Char} {l : List Char}
    (h : x ∈ (takeNetloc l).1) : netlocDelim x = false := by
  unfold takeNetloc at h
  split at h
  · have := List.mem_takeWhile_imp (by simpa [splitNetloc] using h)
    simpa using this
  · exact absurd h (List.not_mem_nil x)

theorem splitOnLast_decomp {c : Char} {l pre seg : List Char}
    (h : splitOnLast c l = some (pre, seg)) : l = pre ++ c :: seg ∧ c ∉ seg := by
  unfold splitOnLast at h
  split at h
  · rename splitOnFirst c l.reverse = _ => heq
    rename_i revseg revpre
    injection h with h
    injection h with h1 h2
    have h2' : (splitOnFirst c l.reverse).2 = some revpre := by rw [heq]
    have hd := splitOnFirst_decomp h2'
    rw [heq] at hd
    simp only at hd
    constructor
    · have hl : l = (revseg ++ c :: revpre).reverse := by
        rw [← hd, List.reverse_reverse]
      rw [hl, List.reverse_append, List.reverse_cons, ← h1, ← h2]
      simp
    · rw [← h2]
      intro hc
      rw [List.mem_reverse] at hc
      have hnm := splitOnFirst_fst_not_mem c l.reverse
      rw [heq] at hnm
      exact hnm hc
  · simp at h

theorem splitParamsFn_mem_fst {x : Char} {l : List Char}
    (h : x ∈ (splitParamsFn l).1) : x ∈ l := by
  unfold splitParamsFn at h
  split at h
  · rename splitOnLast '/' l = _ => hsl
    split at h
    · rename splitOnFirst ';' _ = _ => hsf
      have hdec := (splitOnLast_decomp hsl).1
      have hfst := congrArg Prod.fst hsf
      rcases List.mem_append.mp h with hx | hx
      · rw [hdec]
        exact List.mem_append_left _ hx
      · rcases List.mem_cons.mp hx with he | hm
        · rw [hdec, he]
          simp
        · rw [hdec]
          exact List.mem_append_right _ (List.mem_cons_of_mem _
            (splitOnFirst_mem_fst (by rw [hfst]; exact hm)))
    · exact h
  · split at h
    · rename splitOnFirst ';' l = _ => hsf
      have hfst := congrArg Prod.fst hsf
      exact splitOnFirst_mem_fst (by rw [hfst]; exact h)
    · exact h

/-- Unpack a successful `urlsplitModel` into the component equations. -/
theorem urlsplitModel_eq_some {u : List Char} {p : URLParts} (h : urlsplitModel u = some p) :
    p.scheme = ((splitScheme (removeTabsCrLf (lstripC0 u))).1).getD []
    ∧ p.netloc = (takeNetloc (splitScheme (removeTabsCrLf (lstripC0 u))).2).1
    ∧ p.path = (splitOnFirst '?'
        (splitOnFirst '#' (takeNetloc (splitScheme (removeTabsCrLf (lstripC0 u))).2).2).1).1
    ∧ p.query = ((splitOnFirst '?'
        (splitOnFirst '#' (takeNetloc (splitScheme (removeTabsCrLf (lstripC0 u))).2).2).1).2).getD []
    ∧ netlocOk p.netloc := by
  simp only [urlsplitModel] at h
  split at h
  · rename_i hok
    injection h with h
    subst h
    exact ⟨rfl, rfl, rfl, rfl, hok⟩
  · exact absurd h (by simp)

/-- Unpack a successful `urlparseModel`: the scheme, netloc and query agree
with `urlsplitModel`, and every character of the path occurs in the
`urlsplitModel` path. -/
theorem urlparseModel_eq_some {u : List Char} {p : URLParts} (h : urlparseModel u = some p) :
    ∃ p0, urlsplitModel u = some p0 ∧ p.scheme = p0.scheme ∧ p.netloc = p0.netloc
      ∧ p.query = p0.query ∧ ∀ x, x ∈ p.path → x ∈ p0.path := by
  unfold urlparseModel at h
  split at h
  · simp at h
  · rename urlsplitModel u = _ => hs
    rename_i p0
    refine ⟨p0, hs, ?_⟩
    split at h
    · injection h with h
      subst h
      exact ⟨rfl, rfl, rfl, fun x hx => splitParamsFn_mem_fst hx⟩
    · injection h with h
      subst h
      exact ⟨rfl, rfl, rfl, fun x hx => hx⟩

theorem mem_removeTabsCrLf {x : Char} {l : List Char} (h : x ∈ removeTabsCrLf l) :
    (x == '\t' || x == '\r' || x == '\n') = false := by
  unfold removeTabsCrLf at h
  have := List.of_mem_filter h
  simpa using this

/-- Characters of a parsed component all come from the sanitized URL text. -/
theorem urlsplitModel_mem {u : List Char} {p : URLParts} (h : urlsplitModel u = some p) :
    ∀ x, (x ∈ p.netloc ∨ x ∈ p.path ∨ x ∈ p.query) → x ∈ removeTabsCrLf (lstripC0 u) := by
  obtain ⟨-, hn, hp, hq, -⟩ := urlsplitModel_eq_some h
  intro x hx
  rcases hx with hx | hx | hx
  · rw [hn] at hx
    exact splitScheme_mem_snd (takeNetloc_mem_fst hx)
  · rw [hp] at hx
    exact splitScheme_mem_snd (takeNetloc_mem_snd
      (splitOnFirst_mem_fst (splitOnFirst_mem_fst hx)))
  · rw [hq] at hx
    rcases hq2 : (splitOnFirst '?'
        (splitOnFirst '#' (takeNetloc (splitScheme (removeTabsCrLf (lstripC0 u))).2).2).1).2 with
      _ | q
    · rw [hq2] at hx
      simp at hx
    · rw [hq2] at hx
      simp at hx
      exact splitScheme_mem_snd (takeNetloc_mem_snd
        (splitOnFirst_mem_fst (splitOnFirst_mem_snd hq2 hx)))

/-- The pre-query components of a parse contain no `#` and no `?`. -/
theorem urlsplitModel_no_specials {u : List Char} {p : URLParts} (h : urlsplitModel u = some p) :
    '#' ∉ p.netloc ∧ '#' ∉ p.path ∧ '#' ∉ p.query ∧ '?' ∉ p.netloc ∧ '?' ∉ p.path := by
  obtain ⟨-, hn, hp, hq, -⟩ := urlsplitModel_eq_some h
  refine ⟨?_, ?_, ?_, ?_, ?_⟩
  · rw [hn]; intro hx
    have := takeNetloc_fst_no_delim hx
    simp [netlocDelim] at this
  · rw [hp]; intro hx
    exact splitOnFirst_fst_not_mem '#' _ (splitOnFirst_mem_fst hx)
  · rw [hq]; intro hx
    rcases hq2 : (splitOnFirst '?'
        (splitOnFirst '#' (takeNetloc (splitScheme (removeTabsCrLf (lstripC0 u))).2).2).1).2 with
      _ | q
    · rw [hq2] at hx
      simp at hx
    · rw [hq2] at hx
      simp at hx
      exact splitOnFirst_fst_not_mem '#' _ (splitOnFirst_mem_snd hq2 hx)
  · rw [hn]; intro hx
    have := takeNetloc_fst_no_delim hx
    simp [netlocDelim] at this
  · rw [hp]; intro hx
    exact splitOnFirst_fst_not_mem '?' _ hx

/-- Decompose a successful `normalizeurl` into its parse. -/
theorem normalizeurl_decomp {u n : List Char} (h : normalizeurl u = some n) :
    ∃ p, urlparseModel (pyStrip u) = some p ∧
      n = (if p.query.length > 0 then rstripSlashes (p.netloc ++ p.path) ++ '?' :: p.query
           else rstripSlashes (p.netloc ++ p.path)) := by
  simp only [normalizeurl] at h
  split at h
  · simp at h
  · rename urlparseModel (pyStrip u) = _ => hs
    rename_i p
    injection h with h
    exact ⟨p, hs, h.symm⟩

/-! ### Claims about `normalizeurl` -/

/-- C9: `normalizeurl "https://google.com/"` is `"google.com"` and
`normalizeurl "https://abs.google.co.uk/index///?a=4&b=%20D"` is
`"abs.google.co.uk/index?a=4&b=%20D"` (the repository's two unit tests). -/
theorem C9_normalize_test_values :
    normalizeurl "https://google.com/".data = some "google.com".data ∧
    normalizeurl "https://abs.google.co.uk/index///?a=4&b=%20D".data =
      some "abs.google.co.uk/index?a=4&b=%20D".data :=
  ⟨by decide, by decide⟩

/-- C5 counterexample: the claim says a path ending in two slashes keeps all
but the final one, so `"https://a.com//"` would normalize to `"a.com/"`; the
code's `rstrip('/')` removes both and yields `"a.com"`. -/
theorem C5_counterexample :
    normalizeurl "https://a.com//".data = some "a.com".data ∧
    ("a.com".data : List Char) ≠ "a.com/".data :=
  ⟨by decide, by decide⟩

/-- C5 amended: `normalizeurl` strips ALL trailing slashes from the host+path
part, not exactly one: for every successful normalization, the part of the
result before the first `?` never ends in a `/`. -/
theorem C5_amended (u n : List Char) (h : normalizeurl u = some n) :
    ((splitOnFirst '?' n).1).getLast? ≠ some '/' := by
  obtain ⟨p, hp, hn⟩ := normalizeurl_decomp h
  obtain ⟨p0, hp0, hsch, hnet, hqu, hpath⟩ := urlparseModel_eq_some hp
  have hspec := urlsplitModel_no_specials hp0
  have hq1 : '?' ∉ p.netloc ++ p.path := by
    intro hx
    rcases List.mem_append.mp hx with hx | hx
    · exact hspec.2.2.2.1 (hnet ▸ hx)
    · exact hspec.2.2.2.2 (hpath _ hx)
  have hq2 : '?' ∉ rstripSlashes (p.netloc ++ p.path) := fun hx => hq1 (rstripSlashes_mem hx)
  by_cases hql : p.query.length > 0
  · rw [if_pos hql] at hn
    rw [hn, splitOnFirst_append_cons _ hq2]
    exact rstripSlashes_getLast? _
  · rw [if_neg hql] at hn
    rw [hn, splitOnFirst_of_not_mem hq2]
    exact rstripSlashes_getLast? _

theorem C5_amended_witness :
    ((splitOnFirst '?' "a.com//x".data).1).getLast? ≠ some '/' :=
  C5_amended "https://a.com//x/".data "a.com//x".data (by decide)

/-- C6 counterexample: normalization is not idempotent for every parseable
URL.  `"https://a.com:8080/x"` normalizes to `"a.com:8080/x"`, but
normalizing that again re-parses `a.com` as a URL scheme and yields
`"8080/x"`. -/
theorem C6_counterexample :
    normalizeurl "https://a.com:8080/x".data = some "a.com:8080/x".data ∧
    normalizeurl "a.com:8080/x".data = some "8080/x".data ∧
    ("8080/x".data : List Char) ≠ "a.com:8080/x".data :=
  ⟨by decide, by decide, by decide⟩

/-- Every character of a normalized URL is a `?` or comes from the sanitized
input text. -/
theorem normalizeurl_mem {u n : List Char} {x : Char} (h : normalizeurl u = some n)
    (hx : x ∈ n) : x = '?' ∨ x ∈ removeTabsCrLf (lstripC0 (pyStrip u)) := by
  obtain ⟨p, hp, hn⟩ := normalizeurl_decomp h
  obtain ⟨p0, hp0, hsch, hnet, hqu, hpath⟩ := urlparseModel_eq_some hp
  have hmem := urlsplitModel_mem hp0
  have hhp : x ∈ p.netloc ++ p.path → x ∈ removeTabsCrLf (lstripC0 (pyStrip u)) := by
    intro hm
    rcases List.mem_append.mp hm with hm | hm
    · exact hmem x (Or.inl (hnet ▸ hm))
    · exact hmem x (Or.inr (Or.inl (hpath _ hm)))
  by_cases hql : p.query.length > 0
  · rw [if_pos hql] at hn
    rw [hn] at hx
    rcases List.mem_append.mp hx with hm | hm
    · exact Or.inr (hhp (rstripSlashes_mem hm))
    · rcases List.mem_cons.mp hm with he | hm
      · exact Or.inl he
      · exact Or.inr (hmem x (Or.inr (Or.inr (hqu ▸ hm))))
  · rw [if_neg hql] at hn
    rw [hn] at hx
    exact Or.inr (hhp (rstripSlashes_mem hx))

/-- A normalized URL contains no `#` (the fragment is dropped before any
component that reaches the output). -/
theorem normalizeurl_no_hash {u n : List Char} (h : normalizeurl u = some n) : '#' ∉ n := by
  intro hx
  obtain ⟨p, hp, hn⟩ := normalizeurl_decomp h
  obtain ⟨p0, hp0, hsch, hnet, hqu, hpath⟩ := urlparseModel_eq_some hp
  have hspec := urlsplitModel_no_specials hp0
  have hhp : '#' ∉ p.netloc ++ p.path := by
    intro hm
    rcases List.mem_append.mp hm with hm | hm
    · exact hspec.1 (hnet ▸ hm)
    · exact hspec.2.1 (hpath _ hm)
  by_cases hql : p.query.length > 0
  · rw [if_pos hql] at hn
    rw [hn] at hx
    rcases List.mem_append.mp hx with hm | hm
    · exact hhp (rstripSlashes_mem hm)
    · rcases List.mem_cons.mp hm with he | hm
      · simp at he
      · exact hspec.2.2.1 (hqu ▸ hm)
  · rw [if_neg hql] at hn
    rw [hn] at hx
    exact hhp (rstripSlashes_mem hx)

/-- A normalized URL contains no tab, CR or LF, so the sanitizing filter of a
re-parse leaves it unchanged. -/
theorem normalizeurl_removeTabs {u n : List Char} (h : normalizeurl u = some n) :
    removeTabsCrLf n = n := by
  apply List.filter_eq_self.mpr
  intro a ha
  rcases normalizeurl_mem h ha with he | hm
  · subst he
    decide
  · have := mem_removeTabsCrLf hm
    simp only [Bool.or_eq_false_iff] at this
    simp [this.1.1, this.1.2, this.2]

/-- C6 amended: normalization is idempotent for every parseable URL whose
normalized form `n` is its own strip (`n` neither starts nor ends with
whitespace or C0 controls), contains no scheme-like `name:` prefix (in
particular no explicit port), does not start with `//`, and has no `;` in its
pre-query part.  In general idempotence fails — see the counterexample with an
explicit port. -/
theorem C6_amended (u n : List Char)
    (h : normalizeurl u = some n)
    (h1 : pyStrip n = n)
    (h2 : lstripC0 n = n)
    (h3 : (splitScheme n).1 = none)
    (h4 : takeNetloc n = ([], n))
    (h5 : ';' ∉ (splitOnFirst '?' n).1) :
    normalizeurl n = some n := by
  have hrt : removeTabsCrLf n = n := normalizeurl_removeTabs h
  have hhash : '#' ∉ n := normalizeurl_no_hash h
  have hscheme : splitScheme (removeTabsCrLf (lstripC0 n)) = (none, n) := by
    rw [h2, hrt]
    exact splitScheme_none h3
  have hus : urlsplitModel n =
      some ⟨[], [], (splitOnFirst '?' n).1, [], ((splitOnFirst '?' n).2).getD [], []⟩ := by
    simp only [urlsplitModel, hscheme]
    rw [h4]
    rw [if_pos (by simp [netlocOk])]
    rw [splitOnFirst_of_not_mem hhash]
    rfl
  have hup : urlparseModel n =
      some ⟨[], [], (splitOnFirst '?' n).1, [], ((splitOnFirst '?' n).2).getD [], []⟩ := by
    simp only [urlparseModel, hus]
    rw [if_neg (fun hcond => h5 hcond.2)]
  obtain ⟨p, hp, hn⟩ := normalizeurl_decomp h
  obtain ⟨p0, hp0, hsch, hnet, hqu, hpath⟩ := urlparseModel_eq_some hp
  have hspec := urlsplitModel_no_specials hp0
  have hq1 : '?' ∉ p.netloc ++ p.path := by
    intro hx
    rcases List.mem_append.mp hx with hx | hx
    · exact hspec.2.2.2.1 (hnet ▸ hx)
    · exact hspec.2.2.2.2 (hpath _ hx)
  have hq2 : '?' ∉ rstripSlashes (p.netloc ++ p.path) := fun hx => hq1 (rstripSlashes_mem hx)
  by_cases hql : p.query.length > 0
  · rw [if_pos hql] at hn
    have hsf : splitOnFirst '?' n = (rstripSlashes (p.netloc ++ p.path), some p.query) := by
      rw [hn]
      exact splitOnFirst_append_cons _ hq2
    simp only [normalizeurl, h1, hup, hsf, Option.getD_some]
    rw [if_pos (by simpa using hql)]
    rw [List.nil_append, rstripSlashes_idem, ← hn]
  · rw [if_neg hql] at hn
    have hnq : '?' ∉ n := by
      rw [hn]
      exact hq2
    have hsf : splitOnFirst '?' n = (n, none) := splitOnFirst_of_not_mem hnq
    simp only [normalizeurl, h1, hup, hsf]
    rw [if_neg (by simp)]
    rw [List.nil_append, hn, rstripSlashes_idem, ← hn]

theorem C6_amended_witness : normalizeurl "google.com".data = some "google.com".data :=
  C6_amended "https://google.com/".data "google.com".data (by decide) (by decide)
    (by decide) (by decide) (by decide) (by decide)

/-! ### Fragments: appending `'#' :: f` only changes the fragment component -/

theorem pyLstrip_append_hash (u f : List Char) :
    pyLstrip (u ++ '#' :: f) = pyLstrip u ++ '#' :: f :=
  dropWhile_append_stop u f (by decide)

theorem pyRstrip_append_hash (u f : List Char) :
    pyRstrip (u ++ '#' :: f) = u ++ '#' :: pyRstrip f := by
  unfold pyRstrip
  rw [List.reverse_append, List.reverse_cons, List.append_assoc, List.singleton_append]
  rw [dropWhile_append_stop _ _ (by decide : isPyWS '#' = false)]
  rw [List.reverse_append]
  simp

theorem pyStrip_append_hash (u f : List Char) :
    pyStrip (u ++ '#' :: f) = pyLstrip u ++ '#' :: pyRstrip f := by
  unfold pyStrip
  rw [pyLstrip_append_hash, pyRstrip_append_hash]

theorem dropWhile_suffix (p : Char → Bool) (l : List Char) : l.dropWhile p <:+ l := by
  induction l with
  | nil => exact List.nil_suffix
  | cons x xs ih =>
    by_cases hp : p x = true
    · rw [List.dropWhile_cons, if_pos hp]
      exact ih.trans (List.suffix_cons _ _)
    · rw [List.dropWhile_cons, if_neg hp]

theorem dropWhile_eq_self_of_head? {p : Char → Bool} {l : List Char}
    (h : ∀ a, l.head? = some a → p a = false) : l.dropWhile p = l := by
  cases l with
  | nil => rfl
  | cons x xs =>
    rw [List.dropWhile_cons, h x rfl]
    simp

theorem head?_of_dropWhile_eq_self {p : Char → Bool} {l : List Char}
    (h : l.dropWhile p = l) : ∀ a, l.head? = some a → p a = false := by
  intro a ha
  cases l with
  | nil => simp at ha
  | cons x xs =>
    simp at ha
    subst ha
    by_contra hp
    rw [Bool.not_eq_false] at hp
    rw [List.dropWhile_cons, if_pos hp] at h
    have hlen := congrArg List.length h
    have hle := ((dropWhile_suffix p xs).sublist).length_le
    simp at hlen
    omega

theorem pyRstrip_eq_self_iff {l : List Char} :
    pyRstrip l = l ↔ ∀ a, l.getLast? = some a → isPyWS a = false := by
  unfold pyRstrip
  constructor
  · intro h a ha
    have h2 : l.reverse.dropWhile isPyWS = l.reverse := by
      have := congrArg List.reverse h
      rwa [List.reverse_reverse] at this
    exact head?_of_dropWhile_eq_self h2 a (by rwa [List.head?_reverse])
  · intro h
    have h2 : l.reverse.dropWhile isPyWS = l.reverse :=
      dropWhile_eq_self_of_head? (fun a ha => h a (by rwa [List.head?_reverse] at ha))
    rw [h2, List.reverse_reverse]

theorem pyRstrip_pyLstrip_of_rstrip {u : List Char} (h : pyRstrip u = u) :
    pyRstrip (pyLstrip u) = pyLstrip u := by
  rw [pyRstrip_eq_self_iff] at h ⊢
  intro a ha
  obtain ⟨t, ht⟩ := dropWhile_suffix isPyWS u
  apply h
  rw [← ht]
  unfold pyLstrip at ha
  rw [List.getLast?_append_of_ne_nil _ (fun hnil => by rw [hnil] at ha; simp at ha), ha]

theorem lstripC0_append_hash (u f : List Char) :
    lstripC0 (u ++ '#' :: f) = lstripC0 u ++ '#' :: f :=
  dropWhile_append_stop u f (by decide)

theorem removeTabsCrLf_append_hash (u f : List Char) :
    removeTabsCrLf (u ++ '#' :: f) = removeTabsCrLf u ++ '#' :: removeTabsCrLf f := by
  unfold removeTabsCrLf
  rw [List.filter_append, List.filter_cons]
  simp

theorem splitScheme_of_none {l pre : List Char} (h : splitOnFirst ':' l = (pre, none)) :
    splitScheme l = (none, l) := by
  unfold splitScheme
  rw [h]

theorem splitScheme_of_split_nil {l rest : List Char}
    (h : splitOnFirst ':' l = ([], some rest)) : splitScheme l = (none, l) := by
  unfold splitScheme
  rw [h]

theorem splitScheme_of_split_cons {l rest : List Char} {p0 : Char} {ps : List Char}
    (h : splitOnFirst ':' l = (p0 :: ps, some rest)) :
    splitScheme l =
      if p0.isAlpha && (p0 :: ps).all schemeChar then
        (some ((p0 :: ps).map Char.toLower), rest)
      else (none, l) := by
  unfold splitScheme
  rw [h]

theorem splitScheme_hash (s t : List Char) :
    (splitScheme (s ++ '#' :: t)).1 = (splitScheme s).1 ∧
    (splitScheme (s ++ '#' :: t)).2 = (splitScheme s).2 ++ '#' :: t := by
  rcases hs : splitOnFirst ':' s with ⟨pre, ro⟩
  cases ro with
  | some rest =>
    have hsome : (splitOnFirst ':' s).2 = some rest := by rw [hs]
    have happ : splitOnFirst ':' (s ++ '#' :: t) = (pre, some (rest ++ '#' :: t)) := by
      have h2 := splitOnFirst_append_of_some ('#' :: t) hsome
      rw [hs] at h2
      simpa using h2
    cases pre with
    | nil =>
      rw [splitScheme_of_split_nil hs, splitScheme_of_split_nil happ]
      simp
    | cons p0 ps =>
      rw [splitScheme_of_split_cons hs, splitScheme_of_split_cons happ]
      by_cases hc : (p0.isAlpha && (p0 :: ps).all schemeChar) = true
      · rw [if_pos hc, if_pos hc]
        simp
      · rw [if_neg hc, if_neg hc]
        simp
  | none =>
    have hnone : (splitOnFirst ':' s).2 = none := by rw [hs]
    have happ := splitOnFirst_append_of_none ('#' :: t) hnone
    have hco : splitOnFirst ':' ('#' :: t) =
        ('#' :: (splitOnFirst ':' t).1, (splitOnFirst ':' t).2) := by
      rw [splitOnFirst_cons, if_neg (by decide)]
    rw [hco] at happ
    simp only at happ
    rcases h2 : (splitOnFirst ':' t).2 with _ | r2
    · rw [h2] at happ
      rw [splitScheme_of_none hs, splitScheme_of_none happ]
      simp
    · rw [h2] at happ
      have hmem : '#' ∈ s ++ '#' :: (splitOnFirst ':' t).1 := by
        exact List.mem_append_right _ (List.mem_cons_self _ _)
      rcases hsp : s ++ '#' :: (splitOnFirst ':' t).1 with _ | ⟨q0, qs⟩
      · simp at hsp
      · rw [hsp] at happ hmem
        have hall : ((q0 :: qs).all schemeChar) = false := by
          cases hall : (q0 :: qs).all schemeChar
          · rfl
          · have := List.all_eq_true.mp hall '#' hmem
            simp [schemeChar] at this
        rw [splitScheme_of_split_cons happ, splitScheme_of_none hs]
        rw [hall]
        simp

theorem takeNetloc_hash (r t : List Char) :
    (takeNetloc (r ++ '#' :: t)).1 = (takeNetloc r).1 ∧
    (takeNetloc (r ++ '#' :: t)).2 = (takeNetloc r).2 ++ '#' :: t := by
  unfold takeNetloc
  rcases r with _ | ⟨a, r1⟩
  · rw [if_neg (by simp), if_neg (by decide)]
    simp
  · rcases r1 with _ | ⟨b, r2⟩
    · have hc2 : ¬ ((([a] : List Char) ++ '#' :: t).take 2 = ['/', '/']) := by
        have he : (([a] : List Char) ++ '#' :: t).take 2 = [a, '#'] := rfl
        rw [he]
        intro hx
        injection hx with h1 h2
        injection h2 with h3 h4
        exact absurd h3 (by decide)
      rw [if_neg hc2, if_neg (by simp)]
      simp
    · have htake : ((a :: b :: r2) ++ '#' :: t).take 2 = (a :: b :: r2).take 2 := by simp
      rw [htake]
      by_cases hab : (a :: b :: r2).take 2 = ['/', '/']
      · rw [if_pos hab, if_pos hab]
        have hdrop : ((a :: b :: r2) ++ '#' :: t).drop 2 = r2 ++ '#' :: t := by simp
        rw [hdrop]
        unfold splitNetloc
        constructor
        · simp only
          exact takeWhile_append_stop _ _ (by decide)
        · simp only
          rw [dropWhile_append_stop _ _ (by decide)]
          simp
      · rw [if_neg hab, if_neg hab]
        simp

theorem splitOnFirst_hash_fst (r t : List Char) :
    (splitOnFirst '#' (r ++ '#' :: t)).1 = (splitOnFirst '#' r).1 := by
  rcases h : (splitOnFirst '#' r).2 with _ | rr
  · have hnm := splitOnFirst_snd_none_iff.mp h
    rw [splitOnFirst_of_not_mem hnm] at h ⊢
    rw [splitOnFirst_append_cons t hnm]
  · have h2 := splitOnFirst_append_of_some ('#' :: t) h
    rw [h2]

/-- A `URLParts` with the fragment cleared; `normalizeurl` never reads the
fragment, so equality up to `dropFrag` is all it needs. -/
theorem urlsplitModel_hash (x y : List Char) :
    (urlsplitModel (x ++ '#' :: y)).map
        (fun p => (p.scheme, p.netloc, p.path, p.params, p.query)) =
      (urlsplitModel x).map (fun p => (p.scheme, p.netloc, p.path, p.params, p.query)) := by
  have hsan : removeTabsCrLf (lstripC0 (x ++ '#' :: y)) =
      removeTabsCrLf (lstripC0 x) ++ '#' :: removeTabsCrLf y := by
    rw [lstripC0_append_hash, removeTabsCrLf_append_hash]
  simp only [urlsplitModel, hsan]
  obtain ⟨hs1, hs2⟩ := splitScheme_hash (removeTabsCrLf (lstripC0 x)) (removeTabsCrLf y)
  rw [hs1, hs2]
  obtain ⟨hn1, hn2⟩ := takeNetloc_hash ((splitScheme (removeTabsCrLf (lstripC0 x))).2)
    (removeTabsCrLf y)
  rw [hn1, hn2]
  rw [splitOnFirst_hash_fst]
  by_cases hok : netlocOk (takeNetloc (splitScheme (removeTabsCrLf (lstripC0 x))).2).1
  · rw [if_pos hok, if_pos hok]
    simp
  · rw [if_neg hok, if_neg hok]

theorem urlparseModel_of_none {u : List Char} (h : urlsplitModel u = none) :
    urlparseModel u = none := by
  unfold urlparseModel
  rw [h]

theorem urlparseModel_of_some {u : List Char} {q : URLParts} (h : urlsplitModel u = some q) :
    urlparseModel u =
      if usesParams.contains q.scheme ∧ ';' ∈ q.path then
        some { q with path := (splitParamsFn q.path).1, params := (splitParamsFn q.path).2 }
      else some q := by
  unfold urlparseModel
  rw [h]

theorem normalizeurl_of_none {u : List Char} (h : urlparseModel (pyStrip u) = none) :
    normalizeurl u = none := by
  unfold normalizeurl
  rw [h]

theorem normalizeurl_of_some {u : List Char} {p : URLParts}
    (h : urlparseModel (pyStrip u) = some p) :
    normalizeurl u =
      some (if p.query.length > 0 then rstripSlashes (p.netloc ++ p.path) ++ '?' :: p.query
            else rstripSlashes (p.netloc ++ p.path)) := by
  unfold normalizeurl
  rw [h]

theorem urlparseModel_hash (x y : List Char) :
    (urlparseModel (x ++ '#' :: y)).map
        (fun p => (p.scheme, p.netloc, p.path, p.params, p.query)) =
      (urlparseModel x).map (fun p => (p.scheme, p.netloc, p.path, p.params, p.query)) := by
  have hsplit := urlsplitModel_hash x y
  rcases hx : urlsplitModel x with _ | q
  · rw [hx] at hsplit
    have hnone : urlsplitModel (x ++ '#' :: y) = none := by
      rcases hcomb : urlsplitModel (x ++ '#' :: y) with _ | q'
      · rfl
      · rw [hcomb] at hsplit
        simp at hsplit
    rw [urlparseModel_of_none hx, urlparseModel_of_none hnone]
  · rw [hx] at hsplit
    rcases hcomb : urlsplitModel (x ++ '#' :: y) with _ | q'
    · rw [hcomb] at hsplit
      simp at hsplit
    · rw [hcomb] at hsplit
      simp only [Option.map_some', Option.some.injEq, Prod.mk.injEq] at hsplit
      obtain ⟨e1, e2, e3, e4, e5⟩ := hsplit
      rw [urlparseModel_of_some hx, urlparseModel_of_some hcomb]
      rw [e1, e3]
      by_cases hcond : usesParams.contains q.scheme = true ∧ ';' ∈ q.path
      · rw [if_pos hcond, if_pos hcond]
        simp [e1, e2, e5]
      · rw [if_neg hcond, if_neg hcond]
        simp [e1, e2, e3, e4, e5]

/-- C10 counterexample: dropping the fragment is not normalization-invariant
for every parseable URL: `"https://a.com/x "` (trailing space) normalizes to
`"a.com/x"`, but appending a fragment hides the trailing space from
`str.strip()`, so the fragment-bearing URL normalizes to `"a.com/x "`. -/
theorem C10_counterexample :
    normalizeurl ("https://a.com/x ".data ++ '#' :: "f".data) ≠
      normalizeurl "https://a.com/x ".data ∧
    normalizeurl "https://a.com/x ".data = some "a.com/x".data ∧
    normalizeurl ("https://a.com/x ".data ++ '#' :: "f".data) = some "a.com/x ".data :=
  ⟨by decide, by decide, by decide⟩

/-- C10 amended: for every URL `u` with no trailing whitespace and every
fragment `f`, `normalizeurl (u ++ "#" ++ f) = normalizeurl u` — the fragment
(and everything after the first `#`) never reaches the normalized output. -/
theorem C10_amended (u f : List Char) (h : pyRstrip u = u) :
    normalizeurl (u ++ '#' :: f) = normalizeurl u := by
  have hstrip : pyStrip (u ++ '#' :: f) = pyLstrip u ++ '#' :: pyRstrip f :=
    pyStrip_append_hash u f
  have hstrip2 : pyStrip u = pyLstrip u := pyRstrip_pyLstrip_of_rstrip h
  have hup := urlparseModel_hash (pyLstrip u) (pyRstrip f)
  rcases hx : urlparseModel (pyLstrip u) with _ | p
  · rw [hx] at hup
    have hcombnone : urlparseModel (pyLstrip u ++ '#' :: pyRstrip f) = none := by
      rcases hc : urlparseModel (pyLstrip u ++ '#' :: pyRstrip f) with _ | q
      · rfl
      · rw [hc] at hup
        simp at hup
    rw [normalizeurl_of_none (by rw [hstrip]; exact hcombnone),
      normalizeurl_of_none (by rw [hstrip2]; exact hx)]
  · rw [hx] at hup
    rcases hc : urlparseModel (pyLstrip u ++ '#' :: pyRstrip f) with _ | q
    · rw [hc] at hup
      simp at hup
    · rw [hc] at hup
      simp only [Option.map_some', Option.some.injEq, Prod.mk.injEq] at hup
      obtain ⟨e1, e2, e3, e4, e5⟩ := hup
      rw [normalizeurl_of_some (by rw [hstrip]; exact hc),
        normalizeurl_of_some (by rw [hstrip2]; exact hx)]
      rw [e2, e3, e5]

theorem C10_amended_witness :
    normalizeurl ("https://a.com/x".data ++ '#' :: "frag".data) =
      normalizeurl "https://a.com/x".data :=
  C10_amended "https://a.com/x".data "frag".data (by decide)

/-! ### Claims about the fetcher -/

/-- C1: `process_crawl` never lets a failure escape: on every failure path —
a raised exception, a non-200 status, a missing or non-HTML content type, or
a link-normalization error — it returns a well-formed `CrawlResult` with
`success = false`, an empty link set, no title, no body, the requested URL
and the crawl time.  (The function's own `except` fallback is dead code: the
fetch step already contains every exception.) -/
theorem C1_crawl_failure_contained (f : FetchOutcome) (now : Nat) (url : List Char)
    (hfail : failurePath f) :
    (process_crawl f now url).success = false ∧
    (process_crawl f now url).links = [] ∧
    (process_crawl f now url).url = url ∧
    (process_crawl f now url).title = none ∧
    (process_crawl f now url).body = none ∧
    (process_crawl f now url).crawled_time = now := by
  have hnone : get_links_from_normalized_url f = none := by
    cases f with
    | raises => rfl
    | ok r =>
      have hok : get_links_from_normalized_url (.ok r) =
          (if r.status ≠ 200 then none
           else match r.contentType with
           | none => none
           | some ct =>
             if ¬ hasSub "text/html".data ct then none
             else match seqOpt ((keptHrefs r.hrefs).map normalizeurl) with
               | none => none
               | some links => some (r.titleTag.getD [], r.text, pySet links)) := rfl
      rw [hok]
      by_cases hst : r.status ≠ 200
      · rw [if_pos hst]
      · rw [if_neg hst]
        split
        · rfl
        · rename r.contentType = _ => hct
          rename_i ct
          rcases hfail with h | h | h | h
          · exact absurd h hst
          · rw [hct] at h
            simp at h
          · obtain ⟨ct', hct', hsubf⟩ := h
            rw [hct] at hct'
            injection hct' with he
            subst he
            rw [if_pos (by rw [hsubf]; simp)]
          · by_cases hsub2 : ¬ hasSub "text/html".data ct = true
            · rw [if_pos hsub2]
            · rw [if_neg hsub2]
              rw [h]
  unfold process_crawl
  rw [hnone]
  exact ⟨rfl, rfl, rfl, rfl, rfl, rfl⟩

theorem C1_witness :
    (process_crawl .raises 0 "google.com".data).success = false ∧
    (process_crawl .raises 0 "google.com".data).links = [] ∧
    (process_crawl .raises 0 "google.com".data).url = "google.com".data ∧
    (process_crawl .raises 0 "google.com".data).title = none ∧
    (process_crawl .raises 0 "google.com".data).body = none ∧
    (process_crawl .raises 0 "google.com".data).crawled_time = 0 :=
  C1_crawl_failure_contained .raises 0 "google.com".data True.intro

/-- Membership in a fully-evaluated `seqOpt` over a mapped list. -/
theorem seqOpt_map_mem {xs L : List (List Char)} {g : List Char → Option (List Char)}
    (h : seqOpt (xs.map g) = some L) (v : List Char) :
    v ∈ L ↔ ∃ x ∈ xs, g x = some v := by
  induction xs generalizing L with
  | nil =>
    simp [seqOpt] at h
    subst h
    simp
  | cons x xs ih =>
    rcases hg : g x with _ | a
    · rw [List.map_cons, hg] at h
      simp [seqOpt] at h
    · rw [List.map_cons, hg] at h
      simp only [seqOpt] at h
      rcases hs : seqOpt (xs.map g) with _ | L'
      · rw [hs] at h
        simp at h
      · rw [hs] at h
        simp at h
        subst h
        constructor
        · intro hv
          rcases List.mem_cons.mp hv with he | hm
          · exact ⟨x, List.mem_cons_self _ _, by rw [hg, he]⟩
          · obtain ⟨x', hx', hgx'⟩ := (ih hs).mp hm
            exact ⟨x', List.mem_cons_of_mem _ hx', hgx'⟩
        · rintro ⟨x', hx', hgx'⟩
          rcases List.mem_cons.mp hx' with he | hm
          · subst he
            rw [hg] at hgx'
            injection hgx' with he2
            rw [← he2]
            exact List.mem_cons_self _ _
          · exact List.mem_cons_of_mem _ ((ih hs).mpr ⟨x', hm, hgx'⟩)

/-- C7 counterexample: the claim keeps exactly the anchors whose href BEGINS
with `https://`, but the code filters with `re.compile('https://')`, i.e.
`re.search` — substring — semantics: an anchor with href
`http://a.com?x=https://b.com` is kept by the code and excluded by the
claim's set, so on this page the two link sets differ. -/
theorem C7_counterexample :
    get_links_from_normalized_url (.ok ⟨200, some "text/html".data, some "t".data,
        ["http://a.com?x=https://b.com".data], "body".data⟩) =
      some ("t".data, "body".data, ["a.com?x=https://b.com".data]) ∧
    specLinkSet ["http://a.com?x=https://b.com".data] = ∅ ∧
    (["a.com?x=https://b.com".data] : List (List Char)).toFinset ≠
      specLinkSet ["http://a.com?x=https://b.com".data] :=
  ⟨by decide, by decide, by decide⟩

/-- C7 amended: on a 200/HTML fetch that succeeds, the returned link list is
duplicate-free and contains exactly the normalizations of the hrefs that
CONTAIN `https://` as a substring (`re.search` semantics), not only those
that begin with it. -/
theorem C7_amended (r : HttpResponse) (t b : List Char) (links : List (List Char))
    (v : List Char)
    (h : get_links_from_normalized_url (.ok r) = some (t, b, links)) :
    links.Nodup ∧
    (v ∈ links ↔ ∃ href ∈ r.hrefs,
      hasSub "https://".data href = true ∧ normalizeurl href = some v) := by
  have hok : get_links_from_normalized_url (.ok r) =
      (if r.status ≠ 200 then none
       else match r.contentType with
       | none => none
       | some ct =>
         if ¬ hasSub "text/html".data ct then none
         else match seqOpt ((keptHrefs r.hrefs).map normalizeurl) with
           | none => none
           | some links => some (r.titleTag.getD [], r.text, pySet links)) := rfl
  rw [hok] at h
  split at h
  · simp at h
  · split at h
    · simp at h
    · split at h
      · simp at h
      · split at h
        · simp at h
        · rename seqOpt ((keptHrefs r.hrefs).map normalizeurl) = _ => hseq
          injection h with h
          injection h with h1 h
          injection h with h2 h3
          subst h3
          constructor
          · exact List.nodup_dedup _
          · rw [pySet, List.mem_dedup]
            rw [seqOpt_map_mem hseq v]
            constructor
            · rintro ⟨x, hx, hgx⟩
              obtain ⟨hmem, hsub⟩ := List.mem_filter.mp hx
              exact ⟨x, hmem, hsub, hgx⟩
            · rintro ⟨x, hmem, hsub, hgx⟩
              exact ⟨x, List.mem_filter.mpr ⟨hmem, hsub⟩, hgx⟩

theorem C7_amended_witness :
    (["x.com".data] : List (List Char)).Nodup ∧
    ("x.com".data ∈ (["x.com".data] : List (List Char)) ↔
      ∃ href ∈ ["https://x.com/".data], hasSub "https://".data href = true ∧
        normalizeurl href = some "x.com".data) :=
  C7_amended ⟨200, some "text/html".data, some "T".data, ["https://x.com/".data], "B".data⟩
    "T".data "B".data ["x.com".data] "x.com".data (by decide)

/-! ### Claims about the relational writer -/

/-- C3: the claim says a successful result's `title` is written into the
record's `title` field; the source line `pgrecord.title = crecord.body`
writes the BODY there instead.  Evaluating the writer on one successful
result with title `"T"` and body `"B"`: the record ends crawled, successful,
with `crawled_date` set — but its title is `"B"`, not `"T"`. -/
theorem C3_title_gets_body :
    lookupStore (process_write_postgres [("a.com".data, pendingRecord)]
        [⟨"a.com".data, 5, true, some "T".data, some "B".data, []⟩]) "a.com".data =
      some ⟨true, some "B".data, some "B".data, some true, some 5⟩ ∧
    ("B".data : List Char) ≠ "T".data :=
  ⟨by decide, by decide⟩

theorem find?_append_of_none {α : Type} {p : α → Bool} {l₁ : List α} (l₂ : List α)
    (h : l₁.find? p = none) : (l₁ ++ l₂).find? p = l₂.find? p := by
  induction l₁ with
  | nil => simp
  | cons x xs ih =>
    rw [List.find?_cons] at h
    rw [List.cons_append, List.find?_cons]
    revert h
    cases hp : p x
    · intro h
      exact ih h
    · intro h
      simp at h

theorem find?_map_const_pair {u : List Char} {c : PGRecord} (l : List (List Char)) :
    (l.map (fun v => (v, c))).find? (fun p => p.1 == u) =
      if u ∈ l then some (u, c) else none := by
  induction l with
  | nil => simp
  | cons x xs ih =>
    rw [List.map_cons, List.find?_cons]
    by_cases hx : x = u
    · subst hx
      simp
    · have hbeq : (((x, c) : List Char × PGRecord).1 == u) = false := by
        simp [hx]
      rw [hbeq, ih]
      by_cases hm : u ∈ xs
      · rw [if_pos hm, if_pos (List.mem_cons_of_mem _ hm)]
      · rw [if_neg hm, if_neg (by
          intro hmem
          rcases List.mem_cons.mp hmem with he | hm2
          · exact hx he.symm
          · exact hm hm2)]

/-- C8: the keys of the store stay duplicate-free, the records inserted by
`process_write_postgres` are exactly the union of the batch's discovered
links minus the URLs that already have a record — each inserted as a pending
`crawled = false` record — and the union is the set-union of the results'
link sets (deduplicated, so two anchors normalizing alike insert at most one
record). -/
theorem C8_new_pending_links (store : PGStore) (results : List CrawlResult)
    (u : List Char) (hnd : (store.map Prod.fst).Nodup)
    (hu : u ∉ store.map Prod.fst) :
    ((process_write_postgres store results).map Prod.fst).Nodup ∧
    lookupStore (process_write_postgres store results) u =
      (if u ∈ allNewLinks results then some pendingRecord else none) ∧
    (u ∈ allNewLinks results ↔ ∃ cr ∈ results, u ∈ cr.links) := by
  have hupdkeys :
      ((store.map (fun p => if (results.map (·.url)).contains p.1 then
          (p.1, applyResult (bucketize results p.1) p.2) else p)).map Prod.fst) =
        store.map Prod.fst := by
    rw [List.map_map]
    apply List.map_congr_left
    intro a ha
    rw [Function.comp_apply, apply_ite Prod.fst]
    simp
  have hnewmem : ∀ v, v ∈ (allNewLinks results).filter
        (fun w => !((store.map (·.1)).filter
          (fun k => (allNewLinks results).contains k)).contains w) ↔
      (v ∈ allNewLinks results ∧ v ∉ store.map Prod.fst) := by
    intro v
    rw [List.mem_filter]
    constructor
    · rintro ⟨hv1, hv2⟩
      refine ⟨hv1, fun hv3 => ?_⟩
      rw [Bool.not_eq_true', ← Bool.not_eq_true] at hv2
      exact hv2 (List.elem_iff.mpr
        (List.mem_filter.mpr ⟨hv3, List.elem_iff.mpr hv1⟩))
    · rintro ⟨hv1, hv2⟩
      refine ⟨hv1, ?_⟩
      rw [Bool.not_eq_true']
      rw [← Bool.not_eq_true]
      intro hv3
      exact hv2 (List.mem_filter.mp (List.elem_iff.mp hv3)).1
  refine ⟨?_, ?_, ?_⟩
  · unfold process_write_postgres
    rw [List.map_append, hupdkeys, List.map_map]
    have : ((allNewLinks results).filter
        (fun w => !((store.map (·.1)).filter
          (fun k => (allNewLinks results).contains k)).contains w)).map
            (Prod.fst ∘ fun v => (v, pendingRecord)) =
        (allNewLinks results).filter
          (fun w => !((store.map (·.1)).filter
            (fun k => (allNewLinks results).contains k)).contains w) := by
      rw [show (Prod.fst ∘ fun v => ((v, pendingRecord) : List Char × PGRecord)) = id from rfl]
      exact List.map_id _
    rw [this]
    refine List.Nodup.append hnd (((List.nodup_dedup _).filter _)) ?_
    intro a ha hb
    exact ((hnewmem a).mp hb).2 ha
  · unfold process_write_postgres lookupStore
    rw [find?_append_of_none]
    · rw [find?_map_const_pair]
      by_cases hm : u ∈ allNewLinks results
      · rw [if_pos ((hnewmem u).mpr ⟨hm, hu⟩), if_pos hm]
        rfl
      · rw [if_neg (fun hc => hm ((hnewmem u).mp hc).1), if_neg hm]
        rfl
    · rw [List.find?_eq_none]
      intro x hx
      obtain ⟨a, ha, rfl⟩ := List.mem_map.mp hx
      have hfst : (if (results.map (·.url)).contains a.1 then
          (a.1, applyResult (bucketize results a.1) a.2) else a).1 = a.1 := by
        rw [apply_ite Prod.fst]
        simp
      intro hbeq
      rw [beq_iff_eq, hfst] at hbeq
      exact hu (hbeq ▸ List.mem_map_of_mem Prod.fst ha)
  · unfold allNewLinks pySet
    rw [List.mem_dedup, List.mem_flatten]
    constructor
    · rintro ⟨s, hs, hus⟩
      obtain ⟨cr, hcr, rfl⟩ := List.mem_map.mp hs
      exact ⟨cr, hcr, hus⟩
    · rintro ⟨cr, hcr, hus⟩
      exact ⟨cr.links, List.mem_map_of_mem _ hcr, hus⟩

theorem C8_witness :
    ((process_write_postgres [("a.com".data, pendingRecord)]
        [⟨"a.com".data, 5, true, some "T".data, some "B".data,
          ["b.com".data, "a.com".data]⟩]).map Prod.fst).Nodup ∧
    lookupStore (process_write_postgres [("a.com".data, pendingRecord)]
        [⟨"a.com".data, 5, true, some "T".data, some "B".data,
          ["b.com".data, "a.com".data]⟩]) "b.com".data =
      (if "b.com".data ∈ allNewLinks [⟨"a.com".data, 5, true, some "T".data, some "B".data,
          ["b.com".data, "a.com".data]⟩] then some pendingRecord else none) ∧
    ("b.com".data ∈ allNewLinks [⟨"a.com".data, 5, true, some "T".data, some "B".data,
          ["b.com".data, "a.com".data]⟩] ↔
      ∃ cr ∈ [(⟨"a.com".data, 5, true, some "T".data, some "B".data,
          ["b.com".data, "a.com".data]⟩ : CrawlResult)], "b.com".data ∈ cr.links) :=
  C8_new_pending_links _ _ "b.com".data (by decide) (by decide)

/-! ### Claims about the graph writer -/

theorem lookup_mergeNode (g : NodeList) (k : List Char) (v : Option (List Char))
    (u : List Char) :
    lookupNodes (mergeNode g k v) u = if u = k then some v else lookupNodes g u := by
  induction g with
  | nil =>
    by_cases hu : u = k
    · subst hu
      unfold mergeNode lookupNodes
      rw [List.find?_cons_of_pos _ (by simp)]
      simp
    · unfold mergeNode lookupNodes
      rw [List.find?_cons_of_neg _ (by simp; exact fun he => hu he.symm)]
      simp [hu]
  | cons p rest ih =>
    unfold mergeNode
    by_cases hp : p.1 = k
    · rw [if_pos hp]
      by_cases hu : u = k
      · subst hu
        unfold lookupNodes
        rw [List.find?_cons_of_pos _ (by simp), List.find?_cons_of_pos _ (by simp [hp])]
        simp
      · unfold lookupNodes
        rw [List.find?_cons_of_neg _ (by simp; exact fun he => hu he.symm),
          List.find?_cons_of_neg _ (by simp [hp]; exact fun he => hu he.symm)]
        rw [if_neg hu]
    · rw [if_neg hp]
      unfold lookupNodes
      by_cases hpu : p.1 = u
      · rw [List.find?_cons_of_pos _ (by simp [hpu]), List.find?_cons_of_pos _ (by simp [hpu])]
        rw [if_neg (by intro he; subst he; exact hp hpu)]
      · rw [List.find?_cons_of_neg _ (by simp [hpu]), List.find?_cons_of_neg _ (by simp [hpu])]
        exact ih

theorem merge_nodes_cons (g : NodeList) (r : List Char × Option (List Char))
    (rows : List (List Char × Option (List Char))) :
    merge_nodes g (r :: rows) = merge_nodes (mergeNode g r.1 r.2) rows := rfl

theorem lookup_merge_nodes_no_key {rows : List (List Char × Option (List Char))}
    {u : List Char} (hnone : ∀ p ∈ rows, p.1 ≠ u) (g : NodeList) :
    lookupNodes (merge_nodes g rows) u = lookupNodes g u := by
  induction rows generalizing g with
  | nil => rfl
  | cons r rows ih =>
    rw [merge_nodes_cons]
    rw [ih (fun p hp => hnone p (List.mem_cons_of_mem _ hp))]
    rw [lookup_mergeNode]
    rw [if_neg (fun he => hnone r (List.mem_cons_self _ _) he.symm)]

theorem lookup_merge_nodes_uniform {rows : List (List Char × Option (List Char))}
    {u : List Char} {v0 : Option (List Char)}
    (hex : ∃ p ∈ rows, p.1 = u) (hall : ∀ p ∈ rows, p.1 = u → p.2 = v0) (g : NodeList) :
    lookupNodes (merge_nodes g rows) u = some v0 := by
  induction rows generalizing g with
  | nil =>
    obtain ⟨p, hp, -⟩ := hex
    exact absurd hp (List.not_mem_nil p)
  | cons r rows ih =>
    by_cases hrow : ∃ p ∈ rows, p.1 = u
    · exact ih hrow (fun p hp hpu => hall p (List.mem_cons_of_mem _ hp) hpu) _
    · have hr : r.1 = u := by
        obtain ⟨p, hp, hpu⟩ := hex
        rcases List.mem_cons.mp hp with he | hm
        · rw [← he]
          exact hpu
        · exact absurd ⟨p, hm, hpu⟩ hrow
      have hnone : ∀ p ∈ rows, p.1 ≠ u := fun p hp hpu => hrow ⟨p, hp, hpu⟩
      rw [merge_nodes_cons, lookup_merge_nodes_no_key hnone, lookup_mergeNode]
      rw [if_pos hr.symm]
      rw [hall r (List.mem_cons_self _ _) hr]

theorem mergeNode_map_fst (g : NodeList) (k : List Char) (v : Option (List Char)) :
    (mergeNode g k v).map Prod.fst =
      if k ∈ g.map Prod.fst then g.map Prod.fst else g.map Prod.fst ++ [k] := by
  induction g with
  | nil => simp [mergeNode]
  | cons p rest ih =>
    unfold mergeNode
    by_cases hp : p.1 = k
    · rw [if_pos hp, List.map_cons, List.map_cons]
      rw [if_pos (by rw [hp]; exact List.mem_cons_self _ _)]
      simp [hp]
    · rw [if_neg hp, List.map_cons, List.map_cons, ih]
      by_cases hm : k ∈ rest.map Prod.fst
      · rw [if_pos hm, if_pos (List.mem_cons_of_mem _ hm)]
      · rw [if_neg hm, if_neg (by
          intro hmem
          rcases List.mem_cons.mp hmem with he | hm2
          · exact hp he.symm
          · exact hm hm2)]
        simp

theorem merge_nodes_nodup (rows : List (List Char × Option (List Char))) (g : NodeList)
    (hnd : (g.map Prod.fst).Nodup) : ((merge_nodes g rows).map Prod.fst).Nodup := by
  induction rows generalizing g with
  | nil => exact hnd
  | cons r rows ih =>
    rw [merge_nodes_cons]
    apply ih
    rw [mergeNode_map_fst]
    by_cases hm : r.1 ∈ g.map Prod.fst
    · rw [if_pos hm]
      exact hnd
    · rw [if_neg hm]
      exact List.Nodup.append hnd (List.nodup_singleton _)
        (fun a ha hb => hm ((List.mem_singleton.mp hb) ▸ ha))

/-- C2 counterexample: with `preserve=['url']` only the `url` key is protected
on match, so merging the placeholder row `(a.com, '')` produced by crawling
`b.com` (which links to `a.com`) OVERWRITES the existing non-empty title
`"Title A"` with the empty string, where the claim says it stays
`"Title A"`. -/
theorem C2_counterexample :
    lookupNodes (process_write_neo4j [("a.com".data, some "Title A".data)]
        ⟨"b.com".data, 0, true, some "B".data, some "".data, ["a.com".data]⟩) "a.com".data =
      some (some []) ∧
    some (some ([] : List Char)) ≠ some (some "Title A".data) :=
  ⟨by decide, by decide⟩

/-- C2 amended: `merge_nodes` with `preserve=['url']` writes the title on
match as well as on create, so after a graph write every discovered link
other than the crawled URL itself ends with the empty-string placeholder
title — an existing non-empty title is overwritten, not preserved — while
the graph still holds at most one node per URL. -/
theorem C2_amended (g : NodeList) (res : CrawlResult) (u : List Char)
    (hu : u ∈ res.links) (hne : u ≠ res.url) (hnd : (g.map Prod.fst).Nodup) :
    lookupNodes (process_write_neo4j g res) u = some (some []) ∧
    ((process_write_neo4j g res).map Prod.fst).Nodup := by
  constructor
  · unfold process_write_neo4j
    apply lookup_merge_nodes_uniform
    · exact ⟨(u, some []), List.mem_cons_of_mem _
        (List.mem_map_of_mem (fun w => (w, some [])) hu), rfl⟩
    · intro p hp hpu
      rcases List.mem_cons.mp hp with he | hm
      · exfalso
        apply hne
        rw [← hpu, he]
      · obtain ⟨w, hw, rfl⟩ := List.mem_map.mp hm
        rfl
  · exact merge_nodes_nodup _ _ hnd

theorem C2_amended_witness :
    lookupNodes (process_write_neo4j [("a.com".data, some "Old".data)]
        ⟨"b.com".data, 0, true, some "B".data, none, ["a.com".data]⟩) "a.com".data =
      some (some []) ∧
    ((process_write_neo4j [("a.com".data, some "Old".data)]
        ⟨"b.com".data, 0, true, some "B".data, none, ["a.com".data]⟩).map Prod.fst).Nodup :=
  C2_amended [("a.com".data, some "Old".data)]
    ⟨"b.com".data, 0, true, some "B".data, none, ["a.com".data]⟩ "a.com".data
    (by decide) (by decide) (by decide)

/-! ### Claims about the dispatcher loop -/

theorem dispatcherTrace_succ (nw : Nat → Nat) (n : Nat) :
    dispatcherTrace nw (n + 1) = dispatcherTrace nw n ++ iterEvents nw n := rfl

theorem dispatcherTrace_decomp (nw : Nat → Nat) (m : Nat) :
    ∀ n, m ≤ n → ∃ s, dispatcherTrace nw n = dispatcherTrace nw m ++ s := by
  intro n
  induction n with
  | zero =>
    intro h
    exact ⟨[], by simp [Nat.le_zero.mp h]⟩
  | succ n ih =>
    intro h
    rcases Nat.lt_or_ge m (n + 1) with hlt | hge
    · obtain ⟨s, hs⟩ := ih (Nat.lt_succ_iff.mp hlt)
      exact ⟨s ++ iterEvents nw n, by rw [dispatcherTrace_succ, hs, List.append_assoc]⟩
    · have : m = n + 1 := Nat.le_antisymm h hge
      exact ⟨[], by simp [this]⟩

theorem count_iterEvents_wait (nw : Nat → Nat) (b j : Nat) :
    (iterEvents nw b).count (Ev.waitPrevWrites j) = if j = b then 1 else 0 := by
  unfold iterEvents
  rw [List.count_append]
  have hmap : ((List.range (nw b)).map (Ev.submitWrite b)).count (Ev.waitPrevWrites j) = 0 := by
    rw [List.count_eq_zero]
    intro hmem
    obtain ⟨i, -, habs⟩ := List.mem_map.mp hmem
    exact Ev.noConfusion habs
  rw [hmap]
  by_cases hj : j = b
  · subst hj
    simp [List.count_cons]
  · have h1 : (Ev.waitPrevWrites j == Ev.submitFetch b) = false := by
      simp
    have h2 : (Ev.waitPrevWrites j == Ev.waitFetch b) = false := by
      simp
    have h3 : (Ev.waitPrevWrites j == Ev.waitPrevWrites b) = false := by
      simp [hj]
    simp [List.count_cons, h1, h2, h3, hj]

theorem count_trace_wait (nw : Nat → Nat) (j n : Nat) :
    (dispatcherTrace nw n).count (Ev.waitPrevWrites j) = if j < n then 1 else 0 := by
  induction n with
  | zero => simp [dispatcherTrace]
  | succ n ih =>
    rw [dispatcherTrace_succ, List.count_append, ih, count_iterEvents_wait]
    by_cases h1 : j < n
    · rw [if_pos h1, if_neg (by omega), if_pos (by omega)]
    · by_cases h2 : j = n
      · rw [if_neg h1, if_pos h2, if_pos (by omega)]
      · rw [if_neg h1, if_neg h2, if_neg (by omega)]

/-- C4: in the dispatcher loop's sequential trace, iteration `b + 1` waits on
`self.write_futures` — which then contains every write future of iterations
`0 .. b`, since `begin` only appends to the list — before submitting any of
its own write tasks: every batch-`b` write submission precedes the (unique)
batch-`b + 1` wait event, and every batch-`b + 1` write submission follows
it. -/
theorem C4_write_serialization (nw : Nat → Nat) (n b k k' : Nat)
    (hn : b + 2 ≤ n) (hk' : k' < nw b) (hk : k < nw (b + 1)) :
    (b, k') ∈ writeFutures nw (b + 1) ∧
    (dispatcherTrace nw n).count (Ev.waitPrevWrites (b + 1)) = 1 ∧
    ∃ t₁ t₂, dispatcherTrace nw n = t₁ ++ Ev.waitPrevWrites (b + 1) :: t₂ ∧
      Ev.submitWrite b k' ∈ t₁ ∧ Ev.submitWrite (b + 1) k ∈ t₂ := by
  refine ⟨?_, ?_, ?_⟩
  · unfold writeFutures
    exact List.mem_append_right _ (List.mem_map.mpr ⟨k', List.mem_range.mpr hk', rfl⟩)
  · rw [count_trace_wait]
    rw [if_pos (by omega)]
  · obtain ⟨s, hs⟩ := dispatcherTrace_decomp nw (b + 2) n hn
    refine ⟨dispatcherTrace nw (b + 1) ++ [Ev.submitFetch (b + 1), Ev.waitFetch (b + 1)],
      (List.range (nw (b + 1))).map (Ev.submitWrite (b + 1)) ++ s, ?_, ?_, ?_⟩
    · rw [hs, dispatcherTrace_succ]
      unfold iterEvents
      simp [List.append_assoc]
    · apply List.mem_append_left
      rw [dispatcherTrace_succ]
      apply List.mem_append_right
      unfold iterEvents
      apply List.mem_append_right
      exact List.mem_map.mpr ⟨k', List.mem_range.mpr hk', rfl⟩
    · exact List.mem_append_left _ (List.mem_map.mpr ⟨k, List.mem_range.mpr hk, rfl⟩)

theorem C4_witness :
    (0, 0) ∈ writeFutures (fun _ => 1) 1 ∧
    (dispatcherTrace (fun _ => 1) 3).count (Ev.waitPrevWrites 1) = 1 ∧
    ∃ t₁ t₂, dispatcherTrace (fun _ => 1) 3 = t₁ ++ Ev.waitPrevWrites 1 :: t₂ ∧
      Ev.submitWrite 0 0 ∈ t₁ ∧ Ev.submitWrite 1 0 ∈ t₂ :=
  C4_write_serialization (fun _ => 1) 3 0 0 0 (by decide) (by decide) (by decide)
